import Mathlib

/-!
Verification of the submission reconciliation engine in
`scripts/data_calc.py`.

The development shallowly embeds the script:

* pandas rows become `Submission` values; `NaN`/`NaT` entries are `none`;
* `filter_current_month_latest_per_email` (lines 42-57) is embedded as
  dropping invalid rows, keeping the reference month, sorting ascending
  by timestamp and keeping the last row of each raw-email group, which is
  what `sort_values` followed by `groupby(...).tail(1)` computes.  The
  `sort_values` default kind is quicksort, whose order among equal
  timestamps is unspecified: the concrete `sortByTs` below is one
  admissible outcome, and the period-filter theorem quantifies over every
  sorted rearrangement of the eligible rows so that nothing proved
  depends on how ties land;
* `build_label_row_map` (lines 59-68) and `update_filial_tab`
  (lines 70-96) act on a destination sheet modelled as a label column
  (`List String`) and a value column (`Nat → String`, 1-indexed);
* the processed-email JSON file becomes the `FileState` type, and
  `load_processed_emails` / `save_processed_emails` (lines 98-115) are
  total functions on it - totality models the catch-all exception
  handlers;
* `main` (lines 117-181) becomes `mainRun`, parameterised by an oracle
  `writeFails` telling which destination writes raise, and by
  `newOrder`, the iteration order CPython happens to use for the
  `new_emails` set; an unhandled exception is the result `none`.
-/

/-- A parsed `Carimbo de data/hora` instant: calendar year, month and the
remainder of the instant (day and time collapsed into one number, which is
all the script ever compares after extracting year and month). -/
structure Timestamp where
  year : Nat
  month : Nat
  rest : Nat
deriving DecidableEq

/-- Lexicographic order on instants, mirroring chronological comparison of
the parsed timestamps. -/
def tsLe (a b : Timestamp) : Bool :=
  a.year < b.year ||
    (a.year == b.year &&
      (a.month < b.month || (a.month == b.month && a.rest ≤ b.rest)))

/-- Strict chronological order, as the complement of `tsLe`. -/
def tsLt (a b : Timestamp) : Bool := !tsLe b a

/-- One row of the responses sheet.  `carimbo` is `none` when
`pd.to_datetime(..., errors="coerce")` produced `NaT`; `email` is `none`
when the `Endereço de e-mail` cell is missing (`NaN`); `fields` are the
remaining labelled cells of the row, with `none` for a `NaN` value. -/
structure Submission where
  carimbo : Option Timestamp
  email : Option String
  fields : List (String × Option String)
deriving DecidableEq

/-- A row that survives `dropna(subset=["Carimbo de data/hora",
"Endereço de e-mail"])`: both key columns are present. -/
structure ValidRow where
  ts : Timestamp
  email : String
  fields : List (String × Option String)
deriving DecidableEq

/-- Lines 46: `df.dropna(subset=["Carimbo de data/hora",
"Endereço de e-mail"])`. -/
def dropnaRows (rows : List Submission) : List ValidRow :=
  rows.filterMap fun r =>
    match r.carimbo, r.email with
    | some ts, some email => some ⟨ts, email, r.fields⟩
    | _, _ => none

/-- Line 50: the row's timestamp falls in the reference instant's calendar
year and month. -/
def inPeriod (now : Timestamp) (r : ValidRow) : Bool :=
  r.ts.year == now.year && r.ts.month == now.month

/-- One insertion step of an ascending insertion sort by timestamp: the
new row is placed before the first strictly later row.  Where it lands
among equal timestamps is an artefact of this particular sort and carries
no meaning - the program's quicksort fixes no tie order - so no claim
result relies on it. -/
def sortedInsert (x : ValidRow) : List ValidRow → List ValidRow
  | [] => [x]
  | y :: ys => if tsLt x.ts y.ts then x :: y :: ys else y :: sortedInsert x ys

/-- Line 55: `df_month.sort_values("Carimbo de data/hora")` sorts
ascending by timestamp with the default `kind='quicksort'`, which leaves
the relative order of equal timestamps unspecified.  This definition is
one admissible outcome (a sorted permutation of its input, see
`sortByTs_perm` and `sortByTs_sortedTs`); the period-filter claim is
proved for every sorted permutation, of which this is an instance. -/
def sortByTs (l : List ValidRow) : List ValidRow :=
  l.foldl (fun acc x => sortedInsert x acc) []

/-- Line 56: `groupby("Endereço de e-mail", as_index=False).tail(1)` keeps,
in the sorted order, the last row of each raw-email group.  Note the
grouping key is the e-mail exactly as stored, with no normalisation. -/
def keepLastPerEmail : List ValidRow → List ValidRow
  | [] => []
  | x :: xs =>
    if xs.any (fun y => y.email == x.email) then keepLastPerEmail xs
    else x :: keepLastPerEmail xs

/-- Lines 42-57: `filter_current_month_latest_per_email`.  (The early
return on an empty month frame is omitted: it returns the same empty
result the general path produces.)  On inputs with equal timestamps
inside one raw-email group the program's result depends on quicksort's
unspecified tie order; this composition fixes one admissible outcome,
and every theorem about it either quantifies over all sorted
rearrangements or concerns inputs and properties that are insensitive to
the tie order. -/
def filter_current_month_latest_per_email (rows : List Submission)
    (now : Timestamp) : List ValidRow :=
  let valid := dropnaRows rows
  let df_month := valid.filter (fun r => inPeriod now r)
  keepLastPerEmail (sortByTs df_month)

/-- The whitespace characters Python's `str.strip()` removes (ASCII
range). -/
def isSpaceChar (c : Char) : Bool :=
  c == ' ' || c == '\t' || c == '\n' || c == '\r' || c == '\x0b' || c == '\x0c'

/-- Python `str.strip()`: drop whitespace from both ends. -/
def pyStrip (s : String) : String :=
  ⟨((s.data.dropWhile isSpaceChar).reverse.dropWhile isSpaceChar).reverse⟩

/-- Python `str.lower()` (ASCII case folding). -/
def pyLower (s : String) : String := ⟨s.data.map Char.toLower⟩

/-- Lines 135 and 149: `email.strip().lower()`. -/
def normEmail (e : String) : String := pyLower (pyStrip e)

/-- Lines 59-68: `build_label_row_map`.  Column A of the destination tab
is read as a list of labels; scanning it with 1-based row numbers, each
non-blank trimmed label is assigned its row number in a dict, a later
assignment overwriting an earlier one.  The resulting dict is modelled as
its lookup function. -/
def build_label_row_map (colA : List String) : String → Option Nat :=
  (List.enumFrom 1 colA).foldl
    (fun label_to_row p =>
      let label := pyStrip p.2
      if label = "" then label_to_row
      else fun k => if k = label then some p.1 else label_to_row k)
    (fun _ => none)

/-- Lines 80-84: stage one write `(row, value)` for every submission field
whose trimmed label occurs in the label map; a missing (`NaN`) value is
written as the empty string. -/
def stageUpdates (label_to_row : String → Option Nat)
    (sub : List (String × Option String)) : List (Nat × String) :=
  sub.filterMap fun kv =>
    match label_to_row (pyStrip kv.1) with
    | some row_idx =>
      some (row_idx, match kv.2 with | some v => v | none => "")
    | none => none

/-- Lines 90-94: the `cell_map` loop writes each staged value into the
fetched cell of its row, a later staged write to the same row overwriting
an earlier one; this returns the value the cell of row `r` ends up
holding, if any staged write targets it. -/
def lastValueFor : List (Nat × String) → Nat → Option String
  | [], _ => none
  | p :: rest, r =>
    match lastValueFor rest r with
    | some v => some v
    | none => if p.1 = r then some p.2 else none

/-- Line 74: `ws.batch_clear(["B1:B200"])` - rows 1 to 200 of the value
column become empty, everything else is untouched. -/
def clearedCol (colB : Nat → String) : Nat → String :=
  fun r => if 1 ≤ r ∧ r ≤ 200 then "" else colB r

/-- Lines 70-96: `update_filial_tab` as a transformer of the entity's
value column (column B, 1-indexed).  After the clear, `ws.range` fetches
the current cells of the staged min-to-max row span and `update_cells`
writes them all back, so inside the span a row receives its last staged
value if it has one and keeps its post-clear value otherwise. -/
def update_filial_tab (colA : List String)
    (sub : List (String × Option String)) (colB : Nat → String) :
    Nat → String :=
  let cleared := clearedCol colB
  let label_to_row := build_label_row_map colA
  let updates := stageUpdates label_to_row sub
  match updates with
  | [] => cleared
  | u :: us =>
    let lo := (us.map Prod.fst).foldl Nat.min u.1
    let hi := (us.map Prod.fst).foldl Nat.max u.1
    fun r =>
      if lo ≤ r ∧ r ≤ hi then
        match lastValueFor (u :: us) r with
        | some v => v
        | none => cleared r
      else cleared r

/-- The possible states of `processed_emails.json` as the persistence
layer presents them: absent, unreadable, unparseable JSON, or parsed JSON
whose `processed_emails` key may be missing. -/
inductive FileState where
  | missing
  | unreadable
  | unparseable
  | parsed (processedEmails : Option (List String))
deriving DecidableEq

/-- Lines 98-107: `load_processed_emails`.  The function is total: every
failure state yields the empty set, mirroring the catch-all handler and
the final `return set()`. -/
def load_processed_emails : FileState → Finset String
  | FileState.parsed (some emails) => emails.toFinset
  | FileState.parsed none => ∅
  | FileState.missing => ∅
  | FileState.unreadable => ∅
  | FileState.unparseable => ∅

/-- Lines 109-115: `save_processed_emails` writes
`{"processed_emails": list(emails)}`; `emailsList` is `list(emails)`, the
set's elements in whatever order CPython enumerates them. -/
def save_processed_emails (emailsList : List String) : FileState :=
  FileState.parsed (some emailsList)

/-- `l` is a possible CPython iteration order of the set `s`: its
elements, each once. -/
def enumOK (s : Finset String) (l : List String) : Prop :=
  l.Nodup ∧ l.toFinset = s

instance (s : Finset String) (l : List String) : Decidable (enumOK s l) := by
  unfold enumOK; infer_instance

/-- Line 141: `new_emails = current_emails - processed_emails`. -/
def deltaEmails (current prior : Finset String) : Finset String :=
  current \ prior

/-- Lines 136-137, 150-152 and 174-175: `EMAIL_TO_FILIAL.get(email)`
guarded by Python truthiness, so an unmapped e-mail and an e-mail mapped
to the empty string are both treated as having no filial. -/
def filialFor (mapping : String → Option String) (email : String) :
    Option String :=
  match mapping email with
  | some f => if f = "" then none else some f
  | none => none

/-- Lines 132-138: collect the normalised e-mails of the filtered rows
that have a (truthy) mapping, as the set `current_emails`. -/
def currentEmailsOf (mapping : String → Option String)
    (latest : List ValidRow) : Finset String :=
  latest.foldl
    (fun s r =>
      let email := normEmail r.email
      match filialFor mapping email with
      | some _ => insert email s
      | none => s)
    ∅

/-- Lines 148-165: the per-row processing loop.  An unmapped row is
skipped; otherwise `update_filial_tab` runs against the row's filial - if
that external write raises (`writeFails`), the exception propagates and
the whole run dies, which is the `none` result; on success the filial is
appended to `updated_tabs` unless already present and the e-mail is added
to `processed_this_run`. -/
def processRows (mapping : String → Option String)
    (writeFails : String → Bool) :
    List ValidRow → List String → Finset String →
      Option (List String × Finset String)
  | [], updated_tabs, processed_this_run =>
    some (updated_tabs, processed_this_run)
  | r :: rest, updated_tabs, processed_this_run =>
    match filialFor mapping (normEmail r.email) with
    | none => processRows mapping writeFails rest updated_tabs processed_this_run
    | some filial =>
      if writeFails filial then none
      else
        processRows mapping writeFails rest
          (if updated_tabs.contains filial then updated_tabs
           else updated_tabs ++ [filial])
          (insert (normEmail r.email) processed_this_run)

/-- Lines 171-176: resolve each delta e-mail (in set-iteration order) to
its filial, skipping unmapped ones and duplicates. -/
def newFiliaisOf (mapping : String → Option String)
    (new_emails : List String) : List String :=
  new_emails.foldl
    (fun new_filiais email =>
      match filialFor mapping email with
      | some filial =>
        if new_filiais.contains filial then new_filiais
        else new_filiais ++ [filial]
      | none => new_filiais)
    []

/-- `json.dumps` of a string (escaping not modelled: no value in this
development contains a character that needs it). -/
def jsonString (s : String) : String := "\"" ++ s ++ "\""

/-- `json.dumps` of a list of strings, `"[]"` when empty. -/
def jsonList (l : List String) : String :=
  "[" ++ String.intercalate ", " (l.map jsonString) ++ "]"

/-- The external inputs of one invocation of `main`: the fetched response
rows, the reference instant `datetime.now()`, the `EMAIL_TO_FILIAL`
mapping and the state of `processed_emails.json`. -/
structure RunInput where
  responses : List Submission
  now : Timestamp
  mapping : String → Option String
  fileState : FileState

/-- The observable outcome of a completed run: the `KEY=json` lines
printed for automation, the set handed to `save_processed_emails` (`none`
when save is never called), and the run's collections. -/
structure RunResult where
  outputs : List (String × String)
  saved : Option (Finset String)
  updatedTabs : List String
  newEmails : Finset String
  newFiliais : List String
  processedThisRun : Finset String
deriving DecidableEq

/-- Lines 117-181: `main`, with the connection and sheet reads abstracted
into `RunInput`.  `writeFails` says which filial's destination write
raises; `newOrder` is the iteration order CPython uses for the
`new_emails` set (it is input to the run, not determined by it).  The
result is `none` when an unhandled exception aborts the run. -/
def mainRun (inp : RunInput) (writeFails : String → Bool)
    (newOrder : List String) : Option RunResult :=
  let latest := filter_current_month_latest_per_email inp.responses inp.now
  if latest = [] then
    some
      { outputs := [("PROCESSED_EMAILS_JSON", "[]"), ("NEW_EMAILS_JSON", "[]")]
        saved := none
        updatedTabs := []
        newEmails := ∅
        newFiliais := []
        processedThisRun := ∅ }
  else
    let processed_emails := load_processed_emails inp.fileState
    let current_emails := currentEmailsOf inp.mapping latest
    let new_emails := deltaEmails current_emails processed_emails
    match processRows inp.mapping writeFails latest [] ∅ with
    | none => none
    | some (updated_tabs, processed_this_run) =>
      let all_processed := processed_emails ∪ processed_this_run
      let new_filiais := newFiliaisOf inp.mapping newOrder
      some
        { outputs :=
            [("UPDATED_SHEETS_JSON", jsonList updated_tabs),
             ("NEW_EMAILS_JSON", jsonList newOrder),
             ("NEW_FILIAIS_JSON", jsonList new_filiais)]
          saved := some all_processed
          updatedTabs := updated_tabs
          newEmails := new_emails
          newFiliais := new_filiais
          processedThisRun := processed_this_run }

/-- The delta set a given input produces (what `new_emails` holds on the
non-empty path); `newOrder` arguments are enumerations of this set. -/
def newEmailsOf (inp : RunInput) : Finset String :=
  deltaEmails
    (currentEmailsOf inp.mapping
      (filter_current_month_latest_per_email inp.responses inp.now))
    (load_processed_emails inp.fileState)

/-- Modelled from the spec: removing duplicates keeping each element's
first occurrence, the order the spec prescribes for the updated list. -/
def dedupKeepFirst : List String → List String
  | [] => []
  | x :: xs => x :: dedupKeepFirst (xs.filter (fun y => !(y == x)))
termination_by l => l.length
decreasing_by
  simp only [List.length_cons]
  exact Nat.lt_succ_of_le (List.length_filter_le _ _)

/-- The sortedness invariant maintained by the insertion sort: pairwise
non-decreasing timestamps. -/
def SortedTs (l : List ValidRow) : Prop :=
  l.Pairwise (fun a b => tsLe a.ts b.ts = true)

instance (l : List ValidRow) : Decidable (SortedTs l) := by
  unfold SortedTs; infer_instance

/-- Concrete fixtures: two same-month submissions whose identities differ
only in the case of one letter, and a May 2024 reference instant. -/
def rowCap : Submission := ⟨some ⟨2024, 5, 1⟩, some "A@x.com", []⟩

def rowLow : Submission := ⟨some ⟨2024, 5, 2⟩, some "a@x.com", []⟩

def nowMay : Timestamp := ⟨2024, 5, 0⟩

/-- Fixture: one sorted arrangement of the valid in-period rows of
`[rowCap, rowLow]` (their timestamps are distinct, so it is the only
one). -/
def sortedW : List ValidRow :=
  [⟨⟨2024, 5, 1⟩, "A@x.com", []⟩, ⟨⟨2024, 5, 2⟩, "a@x.com", []⟩]

/-- The destination label column of the counterexample: 200 blank rows
followed by the label `Old` at row 201. -/
def colAOld : List String := List.replicate 200 "" ++ ["Old"]

/-- A row on which the processing loop raises: its e-mail resolves to a
filial whose destination write fails. -/
def rowAborts (mapping : String → Option String) (writeFails : String → Bool)
    (r : ValidRow) : Bool :=
  match filialFor mapping (normEmail r.email) with
  | some filial => writeFails filial
  | none => false

/-- The result of the empty-run early return (lines 122-126). -/
def emptyRunResult : RunResult :=
  { outputs := [("PROCESSED_EMAILS_JSON", "[]"), ("NEW_EMAILS_JSON", "[]")]
    saved := none
    updatedTabs := []
    newEmails := ∅
    newFiliais := []
    processedThisRun := ∅ }

/-- The configured identity mapping of the concrete fixtures. -/
def mapW : String → Option String := fun e =>
  if e = "a@x.com" then some "F1" else if e = "b@y.com" then some "F2" else none

/-- Fixture: a run with no responses at all. -/
def inpEmptyW : RunInput := ⟨[], nowMay, mapW, FileState.missing⟩

/-- Fixture: a run with one mapped May submission and no prior state. -/
def inpOneW : RunInput := ⟨[rowLow], nowMay, mapW, FileState.missing⟩

/-- The result `inpOneW` produces (computed from the definitions). -/
def resOneW : RunResult :=
  { outputs := [("UPDATED_SHEETS_JSON", "[\"F1\"]"),
                ("NEW_EMAILS_JSON", "[\"a@x.com\"]"),
                ("NEW_FILIAIS_JSON", "[\"F1\"]")]
    saved := some {"a@x.com"}
    updatedTabs := ["F1"]
    newEmails := {"a@x.com"}
    newFiliais := ["F1"]
    processedThisRun := {"a@x.com"} }

/-- Fixture: a second mapped May submission from a different identity. -/
def rowB2 : Submission := ⟨some ⟨2024, 5, 3⟩, some "b@y.com", []⟩

/-- Fixture: a run with two mapped submissions. -/
def inpTwoW : RunInput := ⟨[rowLow, rowB2], nowMay, mapW, FileState.missing⟩

/-- Failure oracle: the destination write for filial `F1` raises. -/
def failsF1 : String → Bool := fun fil => fil == "F1"

/-- Fixture: the two delta identities of `inpTwoW`, in one enumeration
order and in the other. -/
def ordAB : List String := ["a@x.com", "b@y.com"]

/-- Fixture: the reverse enumeration order. -/
def ordBA : List String := ["b@y.com", "a@x.com"]

/-- The result `inpTwoW` produces under enumeration order `ordAB`
(computed from the definitions). -/
def resTwoW : RunResult :=
  { outputs := [("UPDATED_SHEETS_JSON", "[\"F1\", \"F2\"]"),
                ("NEW_EMAILS_JSON", "[\"a@x.com\", \"b@y.com\"]"),
                ("NEW_FILIAIS_JSON", "[\"F1\", \"F2\"]")]
    saved := some {"b@y.com", "a@x.com"}
    updatedTabs := ["F1", "F2"]
    newEmails := {"b@y.com", "a@x.com"}
    newFiliais := ["F1", "F2"]
    processedThisRun := {"b@y.com", "a@x.com"} }

theorem tsLe_refl (a : Timestamp) : tsLe a a = true := by
  simp [tsLe]

theorem tsLe_trans {a b c : Timestamp} (hab : tsLe a b = true)
    (hbc : tsLe b c = true) : tsLe a c = true := by
  simp only [tsLe, Bool.or_eq_true, Bool.and_eq_true, decide_eq_true_eq,
    Nat.beq_eq_true_eq] at hab hbc ⊢
  omega

theorem tsLe_of_not_tsLe {a b : Timestamp} (h : tsLe a b = false) :
    tsLe b a = true := by
  simp only [tsLe, Bool.or_eq_false_iff, Bool.and_eq_false_iff,
    decide_eq_false_iff_not, Nat.beq_eq_true_eq, beq_eq_false_iff_ne, ne_eq,
    Bool.or_eq_true, Bool.and_eq_true, decide_eq_true_eq] at h ⊢
  omega

theorem tsLe_of_tsLt {a b : Timestamp} (h : tsLt a b = true) :
    tsLe a b = true := by
  simp only [tsLt, Bool.not_eq_true'] at h
  exact tsLe_of_not_tsLe h

theorem tsLe_of_not_tsLt {a b : Timestamp} (h : tsLt a b = false) :
    tsLe b a = true := by
  simpa [tsLt] using h

theorem mem_sortedInsert (a x : ValidRow) :
    ∀ (l : List ValidRow), a ∈ sortedInsert x l ↔ a = x ∨ a ∈ l
  | [] => by simp [sortedInsert]
  | y :: ys => by
    simp only [sortedInsert]
    split
    · simp [List.mem_cons]
    · simp only [List.mem_cons, mem_sortedInsert a x ys]
      tauto

theorem sortedTs_sortedInsert (x : ValidRow) :
    ∀ {l : List ValidRow}, SortedTs l → SortedTs (sortedInsert x l)
  | [], _ => by simp [sortedInsert, SortedTs]
  | y :: ys, h => by
    obtain ⟨hy, hys⟩ := List.pairwise_cons.mp h
    simp only [sortedInsert]
    split
    case isTrue hlt =>
      refine List.Pairwise.cons ?_ h
      intro z hz
      rcases List.mem_cons.mp hz with rfl | hz
      · exact tsLe_of_tsLt hlt
      · exact tsLe_trans (tsLe_of_tsLt hlt) (hy z hz)
    case isFalse hlt =>
      have hlt' : tsLt x.ts y.ts = false := by
        revert hlt; cases tsLt x.ts y.ts <;> simp
      refine List.Pairwise.cons ?_ (sortedTs_sortedInsert x hys)
      intro z hz
      rcases (mem_sortedInsert z x ys).mp hz with rfl | hz
      · exact tsLe_of_not_tsLt hlt'
      · exact hy z hz

theorem mem_of_getLast?_eq {α : Type} :
    ∀ {l : List α} {a : α}, l.getLast? = some a → a ∈ l
  | [x], a, h => by
    simp only [List.getLast?_singleton, Option.some.injEq] at h
    simp [h]
  | x :: y :: l, a, h => by
    rw [List.getLast?_cons_cons] at h
    exact List.mem_cons_of_mem x (mem_of_getLast?_eq h)

theorem keepLast_filter (e : String) :
    ∀ (l : List ValidRow),
      (keepLastPerEmail l).filter (fun r => r.email == e)
        = ((l.filter (fun r => r.email == e)).getLast?).toList
  | [] => rfl
  | x :: xs => by
    simp only [keepLastPerEmail]
    split
    case isTrue hany =>
      rw [keepLast_filter e xs, List.filter_cons]
      cases hx : x.email == e
      · simp
      · have hex : x.email = e := by simpa using hx
        have hne : xs.filter (fun r => r.email == e) ≠ [] := by
          rcases List.any_eq_true.mp hany with ⟨y, hymem, hye⟩
          intro hnil
          have hall := List.filter_eq_nil_iff.mp hnil y hymem
          have : y.email = x.email := by simpa using hye
          exact hall (by simp [this, hex])
        cases hfe : xs.filter (fun r => r.email == e) with
        | nil => exact absurd hfe hne
        | cons w ws => simp [List.getLast?_cons_cons]
    case isFalse hany =>
      rw [List.filter_cons, List.filter_cons]
      cases hx : x.email == e
      · simpa using keepLast_filter e xs
      · have hex : x.email = e := by simpa using hx
        have hnil : xs.filter (fun r => r.email == e) = [] := by
          refine List.filter_eq_nil_iff.mpr fun y hy hye => ?_
          refine hany (List.any_eq_true.mpr ⟨y, hy, ?_⟩)
          have : y.email = e := by simpa using hye
          simp [this, hex]
        simp only [if_true]
        rw [keepLast_filter e xs, hnil]
        simp

theorem sortedInsert_perm (x : ValidRow) :
    ∀ (l : List ValidRow), (sortedInsert x l).Perm (x :: l)
  | [] => List.Perm.refl _
  | y :: ys => by
    simp only [sortedInsert]
    split
    · exact List.Perm.refl _
    · exact ((sortedInsert_perm x ys).cons y).trans (List.Perm.swap x y ys)

theorem foldl_sortedInsert_perm :
    ∀ (l acc : List ValidRow),
      (List.foldl (fun a x => sortedInsert x a) acc l).Perm (acc ++ l)
  | [], acc => by simp
  | x :: xs, acc => by
    simp only [List.foldl_cons]
    refine (foldl_sortedInsert_perm xs (sortedInsert x acc)).trans ?_
    refine ((sortedInsert_perm x acc).append_right xs).trans ?_
    exact List.perm_middle.symm

/-- The concrete `sortByTs` is a permutation of its input. -/
theorem sortByTs_perm (l : List ValidRow) : (sortByTs l).Perm l := by
  simpa [sortByTs] using foldl_sortedInsert_perm l []

theorem foldl_sortedInsert_sortedTs :
    ∀ (l acc : List ValidRow), SortedTs acc →
      SortedTs (List.foldl (fun a x => sortedInsert x a) acc l)
  | [], _, h => h
  | x :: xs, acc, h => by
    simp only [List.foldl_cons]
    exact foldl_sortedInsert_sortedTs xs _ (sortedTs_sortedInsert x h)

/-- The concrete `sortByTs` is sorted by timestamp: together with
`sortByTs_perm` this shows it is one of the sorted rearrangements the
period-filter claim quantifies over. -/
theorem sortByTs_sortedTs (l : List ValidRow) : SortedTs (sortByTs l) :=
  foldl_sortedInsert_sortedTs l [] List.Pairwise.nil

theorem tsLe_getLast? :
    ∀ (l : List ValidRow), SortedTs l → ∀ (x r : ValidRow), x ∈ l →
      l.getLast? = some r → tsLe x.ts r.ts = true
  | [], _, x, _, hx, _ => absurd hx (List.not_mem_nil x)
  | y :: ys, h, x, r, hx, hr => by
    obtain ⟨hy, hys⟩ := List.pairwise_cons.mp h
    cases ys with
    | nil =>
      simp only [List.getLast?_singleton, Option.some.injEq] at hr
      rcases List.mem_singleton.mp hx with rfl
      subst hr
      exact tsLe_refl _
    | cons z zs =>
      rw [List.getLast?_cons_cons] at hr
      rcases List.mem_cons.mp hx with rfl | hx2
      · exact hy r (mem_of_getLast?_eq hr)
      · exact tsLe_getLast? (z :: zs) hys x r hx2 hr

/-- **C1, counterexample.**  The claim says the period filter keeps at
most one submission per *normalized* identity (trim + case-fold).  It
does not: grouping happens on the raw `Endereço de e-mail` value
(line 56), so `"A@x.com"` and `"a@x.com"`, which normalise to the same
identity, both survive.  The two timestamps are distinct, so the sort
outcome on this input is unique and the refutation does not depend on
quicksort's unspecified tie order. -/
theorem periodFilter_two_rows_one_normalized_identity :
    ¬ (((filter_current_month_latest_per_email [rowCap, rowLow] nowMay).filter
          (fun r => normEmail r.email == "a@x.com")).length ≤ 1) := by
  decide

/-- **C1, amended.**  Per *raw* identity (the e-mail exactly as stored,
no trimming or case-folding), and for EVERY possible outcome of the sort
- `sort_values` uses quicksort, so among equal timestamps any sorted
rearrangement of the valid in-period rows may reach the `groupby` step -
the period filter keeps at most one row per raw e-mail `e`; any kept row
is one of the valid in-period input rows and carries the maximum
timestamp of its raw-identity group; and a row for `e` is kept exactly
when the group is non-empty.  Which of several timestamp-tied rows is
kept is NOT determined by the input, so no tie-breaking clause is
claimed.  (`sortByTs_perm` and `sortByTs_sortedTs` show the concrete
`filter_current_month_latest_per_email` is the instance of this statement
at `sorted := sortByTs eligible`.) -/
theorem periodFilter_latest_per_raw_email_any_sort (rows : List Submission)
    (now : Timestamp) (sorted : List ValidRow) (e : String)
    (hperm : sorted.Perm
      ((dropnaRows rows).filter (fun r => inPeriod now r)))
    (hsorted : SortedTs sorted) :
    ((keepLastPerEmail sorted).filter (fun r => r.email == e)).length ≤ 1 ∧
      (∀ r ∈ (keepLastPerEmail sorted).filter (fun r => r.email == e),
        r ∈ (dropnaRows rows).filter (fun r => inPeriod now r) ∧
          ∀ s ∈ (dropnaRows rows).filter (fun r => inPeriod now r),
            s.email = e → tsLe s.ts r.ts = true) ∧
      ((∃ s ∈ (dropnaRows rows).filter (fun r => inPeriod now r),
          s.email = e) →
        ((keepLastPerEmail sorted).filter
            (fun r => r.email == e)).length = 1) := by
  have hkl := keepLast_filter e sorted
  refine ⟨?_, ?_, ?_⟩
  · rw [hkl]
    cases (sorted.filter (fun r => r.email == e)).getLast? <;> simp
  · intro r hr
    rw [hkl] at hr
    have hlast : (sorted.filter (fun r => r.email == e)).getLast? = some r := by
      cases hcase : (sorted.filter (fun r => r.email == e)).getLast? with
      | none =>
        rw [hcase] at hr
        cases hr
      | some w =>
        rw [hcase] at hr
        simp only [Option.toList_some, List.mem_singleton] at hr
        subst hr
        rfl
    have hrF : r ∈ sorted.filter (fun r => r.email == e) :=
      mem_of_getLast?_eq hlast
    have hrs : r ∈ sorted := (List.mem_filter.mp hrF).1
    refine ⟨hperm.mem_iff.mp hrs, ?_⟩
    intro s hs hse
    have hsF : s ∈ sorted.filter (fun r => r.email == e) := by
      refine List.mem_filter.mpr ⟨hperm.mem_iff.mpr hs, ?_⟩
      simp [hse]
    exact tsLe_getLast? _ (List.Pairwise.filter _ hsorted) s r hsF hlast
  · rintro ⟨s, hs, hse⟩
    rw [hkl]
    have hsF : s ∈ sorted.filter (fun r => r.email == e) := by
      refine List.mem_filter.mpr ⟨hperm.mem_iff.mpr hs, ?_⟩
      simp [hse]
    cases hcase : (sorted.filter (fun r => r.email == e)).getLast? with
    | none =>
      rw [List.getLast?_eq_none_iff] at hcase
      rw [hcase] at hsF
      cases hsF
    | some w => simp

/-- **C1, witness.**  The amended theorem applied at a concrete sorted
arrangement of the fixture rows: the group of raw identity `a@x.com` is
non-empty, so exactly one row for it survives. -/
theorem periodFilter_any_sort_witness :
    ((keepLastPerEmail sortedW).filter
        (fun r => r.email == "a@x.com")).length ≤ 1 ∧
      ((keepLastPerEmail sortedW).filter
          (fun r => r.email == "a@x.com")).length = 1 :=
  ⟨(periodFilter_latest_per_raw_email_any_sort [rowCap, rowLow] nowMay sortedW
      "a@x.com" (by decide) (by decide)).1,
   (periodFilter_latest_per_raw_email_any_sort [rowCap, rowLow] nowMay sortedW
      "a@x.com" (by decide) (by decide)).2.2 (by decide)⟩

theorem build_label_row_map_foldl (k : String) :
    ∀ (l : List (Nat × String)) (m : String → Option Nat),
      (l.foldl
          (fun label_to_row p =>
            let label := pyStrip p.2
            if label = "" then label_to_row
            else fun k => if k = label then some p.1 else label_to_row k)
          m) k
        = match (l.filter
              (fun p => pyStrip p.2 == k && !(k == ""))).getLast? with
          | some p => some p.1
          | none => m k
  | [], m => rfl
  | p :: rest, m => by
    rw [List.foldl_cons, build_label_row_map_foldl k rest, List.filter_cons]
    cases hc : (pyStrip p.2 == k && !(k == ""))
    · have hm :
          (if pyStrip p.2 = "" then m
           else fun k0 => if k0 = pyStrip p.2 then some p.1 else m k0) k
            = m k := by
        by_cases hblank : pyStrip p.2 = ""
        · rw [if_pos hblank]
        · rw [if_neg hblank]
          have hk : ¬ k = pyStrip p.2 := by
            intro hkp
            simp only [Bool.and_eq_false_iff, beq_eq_false_iff_ne, ne_eq,
              Bool.not_eq_false', beq_iff_eq] at hc
            rcases hc with hc | hc
            · exact hc hkp.symm
            · exact hblank (hkp ▸ hc)
          exact if_neg hk
      simp only [Bool.false_eq_true, if_false]
      cases (rest.filter (fun p => pyStrip p.2 == k && !(k == ""))).getLast? with
      | none => simpa using hm
      | some q => rfl
    · have hlab : pyStrip p.2 = k ∧ ¬ k = "" := by
        simp only [Bool.and_eq_true, beq_iff_eq, Bool.not_eq_true',
          beq_eq_false_iff_ne, ne_eq] at hc
        exact hc
      have hm :
          (if pyStrip p.2 = "" then m
           else fun k0 => if k0 = pyStrip p.2 then some p.1 else m k0) k
            = some p.1 := by
        have hblank : ¬ pyStrip p.2 = "" := by
          rw [hlab.1]; exact hlab.2
        rw [if_neg hblank]
        exact if_pos hlab.1.symm
      simp only [if_true]
      cases hrest : rest.filter (fun p => pyStrip p.2 == k && !(k == "")) with
      | nil => simpa using hm
      | cons q qs =>
        rw [List.getLast?_cons_cons]
        cases hlast : (q :: qs).getLast? with
        | none => exact absurd hlast (by simp)
        | some w => rfl

/-- **C3, counterexample.**  The claim says a duplicated trimmed label
maps to its FIRST occurrence.  The dict assignment in the loop overwrites,
so the LAST occurrence wins: with column A `["X", "X"]` the label `"X"`
maps to row 2, not row 1. -/
theorem labelMap_duplicate_counterexample :
    build_label_row_map ["X", "X"] "X" = some 2 ∧
      ¬ build_label_row_map ["X", "X"] "X" = some 1 := by
  decide

/-- **C3, amended.**  Full characterisation of the label map: a blank key
is absent, and any other key maps to the 1-based position of its LAST
occurrence among the trimmed column-A labels (so positions whose label is
empty or blank after trimming are never hit, and duplicates resolve to
the last, not the first, occurrence). -/
theorem labelMap_maps_to_last_occurrence (colA : List String) (k : String) :
    build_label_row_map colA k
      = if k = "" then none
        else ((List.enumFrom 1 colA).filter
            (fun p => pyStrip p.2 == k)).getLast?.map Prod.fst := by
  unfold build_label_row_map
  rw [build_label_row_map_foldl]
  by_cases hk : k = ""
  · subst hk
    simp
  · rw [if_neg hk]
    have hcongr : ∀ p ∈ List.enumFrom 1 colA,
        (pyStrip p.2 == k && !(k == "")) = (pyStrip p.2 == k) := by
      intro p _
      simp [hk]
    rw [List.filter_congr hcongr]
    cases ((List.enumFrom 1 colA).filter (fun p => pyStrip p.2 == k)).getLast? <;>
      simp

theorem update_filial_tab_nil_apply {colA : List String}
    {sub : List (String × Option String)} {colB : Nat → String}
    (h : stageUpdates (build_label_row_map colA) sub = []) (r : Nat) :
    update_filial_tab colA sub colB r = clearedCol colB r := by
  unfold update_filial_tab
  rw [h]

theorem update_filial_tab_cons_apply {colA : List String}
    {sub : List (String × Option String)} {colB : Nat → String}
    {u : Nat × String} {us : List (Nat × String)}
    (h : stageUpdates (build_label_row_map colA) sub = u :: us) (r : Nat) :
    update_filial_tab colA sub colB r
      = if (us.map Prod.fst).foldl Nat.min u.1 ≤ r ∧
            r ≤ (us.map Prod.fst).foldl Nat.max u.1 then
          match lastValueFor (u :: us) r with
          | some v => v
          | none => clearedCol colB r
        else clearedCol colB r := by
  unfold update_filial_tab
  rw [h]

/-- **C2.**  The clear-then-write projection is idempotent: with the same
submission fields and the same label column, applying `update_filial_tab`
twice to the value column gives exactly the column a single application
gives. -/
theorem update_filial_tab_idempotent (colA : List String)
    (sub : List (String × Option String)) (colB : Nat → String) :
    update_filial_tab colA sub (update_filial_tab colA sub colB)
      = update_filial_tab colA sub colB := by
  funext r
  cases h : stageUpdates (build_label_row_map colA) sub with
  | nil =>
    rw [update_filial_tab_nil_apply h, update_filial_tab_nil_apply h]
    simp only [clearedCol]
    split
    case isTrue => rfl
    case isFalse hc =>
      rw [update_filial_tab_nil_apply h]
      simp only [clearedCol]
      rw [if_neg hc]
  | cons u us =>
    rw [update_filial_tab_cons_apply h, update_filial_tab_cons_apply h]
    by_cases hr : (us.map Prod.fst).foldl Nat.min u.1 ≤ r ∧
        r ≤ (us.map Prod.fst).foldl Nat.max u.1
    · rw [if_pos hr, if_pos hr]
      cases hv : lastValueFor (u :: us) r with
      | some v => rfl
      | none =>
        simp only [clearedCol]
        by_cases hc : 1 ≤ r ∧ r ≤ 200
        · rw [if_pos hc, if_pos hc]
        · rw [if_neg hc, if_neg hc, update_filial_tab_cons_apply h,
            if_pos hr, hv]
          simp only [clearedCol]
          rw [if_neg hc]
    · rw [if_neg hr, if_neg hr]
      simp only [clearedCol]
      by_cases hc : 1 ≤ r ∧ r ≤ 200
      · rw [if_pos hc, if_pos hc]
      · rw [if_neg hc, if_neg hc, update_filial_tab_cons_apply h, if_neg hr]
        simp only [clearedCol]
        rw [if_neg hc]

theorem lastValueFor_eq_none {r : Nat} :
    ∀ {l : List (Nat × String)}, (∀ p ∈ l, ¬ p.1 = r) →
      lastValueFor l r = none
  | [], _ => rfl
  | p :: rest, h => by
    unfold lastValueFor
    rw [lastValueFor_eq_none fun q hq => h q (List.mem_cons_of_mem p hq)]
    rw [if_neg (h p (List.mem_cons_self p rest))]

theorem stageUpdates_mem {label_to_row : String → Option Nat}
    {sub : List (String × Option String)} {p : Nat × String}
    (hp : p ∈ stageUpdates label_to_row sub) :
    ∃ kv ∈ sub, label_to_row (pyStrip kv.1) = some p.1 := by
  rcases List.mem_filterMap.mp hp with ⟨kv, hkv, hf⟩
  refine ⟨kv, hkv, ?_⟩
  revert hf
  cases hm : label_to_row (pyStrip kv.1) with
  | none => intro hf; cases hf
  | some row => intro hf; cases hf; rfl

/-- **C4, amended.**  The clear covers exactly rows 1-200 of the value
column, not the full addressable range: (i) within rows 1-200 every
position no staged write targets ends the projection empty, and (ii) a
write is only ever staged for a row that the destination label column maps
some submitted label to - never for a label absent from the schema.
Positions beyond row 200 are outside the cleared range, so a stale value
there can survive (see the counterexample). -/
theorem projector_clear_range_and_schema_only (colA : List String)
    (sub : List (String × Option String)) (colB : Nat → String) (r : Nat) :
    (1 ≤ r → r ≤ 200 →
        (∀ p ∈ stageUpdates (build_label_row_map colA) sub, ¬ p.1 = r) →
        update_filial_tab colA sub colB r = "") ∧
      (∀ p ∈ stageUpdates (build_label_row_map colA) sub,
        ∃ kv ∈ sub, build_label_row_map colA (pyStrip kv.1) = some p.1) := by
  constructor
  · intro h1 h200 hnot
    cases h : stageUpdates (build_label_row_map colA) sub with
    | nil =>
      rw [update_filial_tab_nil_apply h]
      simp only [clearedCol]
      rw [if_pos ⟨h1, h200⟩]
    | cons u us =>
      rw [h] at hnot
      rw [update_filial_tab_cons_apply h]
      have hv : lastValueFor (u :: us) r = none := lastValueFor_eq_none hnot
      by_cases hr : (us.map Prod.fst).foldl Nat.min u.1 ≤ r ∧
          r ≤ (us.map Prod.fst).foldl Nat.max u.1
      · rw [if_pos hr, hv]
        simp only [clearedCol]
        rw [if_pos ⟨h1, h200⟩]
      · rw [if_neg hr]
        simp only [clearedCol]
        rw [if_pos ⟨h1, h200⟩]
  · exact fun p hp => stageUpdates_mem hp

set_option maxRecDepth 4000 in
/-- **C4, counterexample.**  A previous run projected a submission with
field `Old`, writing `v1` at row 201.  Re-running with a submission that
lacks that label leaves `v1` in place: row 201 is beyond the cleared range
`B1:B200`, refuting the claim that no position keeps a previously staged
value whose label is absent from the current submission. -/
theorem projector_stale_value_beyond_row_200 :
    update_filial_tab colAOld []
        (update_filial_tab colAOld [("Old", some "v1")] (fun _ => "")) 201
      = "v1" ∧ ¬ ("v1" = "") := by
  constructor
  · decide
  · decide

/-- **C4, witness.**  Both conjuncts of the amended theorem exercised at a
concrete input: with schema `["A"]` and a submission `[("A", some "v")]`,
row 2 (unstaged, within 1-200) is cleared, and the single staged write
targets row 1 via label `A`. -/
theorem projector_clear_range_witness :
    update_filial_tab ["A"] [("A", some "v")] (fun _ => "z") 2 = "" ∧
      ∃ kv ∈ [("A", some "v")],
        build_label_row_map ["A"] (pyStrip kv.1) = some (1, "v").1 := by
  constructor
  · exact (projector_clear_range_and_schema_only ["A"] [("A", some "v")]
      (fun _ => "z") 2).1 (by decide) (by decide) (by decide)
  · exact (projector_clear_range_and_schema_only ["A"] [("A", some "v")]
      (fun _ => "z") 2).2 (1, "v") (by decide)

/-- **C8.**  `load_processed_emails` is a total function - the embedding
of the catch-all `try/except` - and every failure outcome of the
persistence layer (file missing, unreadable, unparseable, or parsed JSON
without the key) yields the empty set, while a successful load returns
exactly the persisted set. -/
theorem load_never_raises_defaults_empty :
    load_processed_emails FileState.missing = ∅ ∧
      load_processed_emails FileState.unreadable = ∅ ∧
      load_processed_emails FileState.unparseable = ∅ ∧
      load_processed_emails (FileState.parsed none) = ∅ ∧
      ∀ l : List String,
        load_processed_emails (FileState.parsed (some l)) = l.toFinset :=
  ⟨rfl, rfl, rfl, rfl, fun _ => rfl⟩

/-- **C9.**  The delta is a pure set difference, empty whenever the
current set is contained in the prior one; and saving a set (serialised in
any enumeration order) and loading it back returns exactly the saved
set. -/
theorem delta_empty_and_save_load_roundtrip :
    (∀ current prior : Finset String, current ⊆ prior →
        deltaEmails current prior = ∅) ∧
      ∀ (s : Finset String) (l : List String), enumOK s l →
        load_processed_emails (save_processed_emails l) = s := by
  constructor
  · intro current prior h
    simpa [deltaEmails] using Finset.sdiff_eq_empty_iff_subset.mpr h
  · intro s l h
    simpa [load_processed_emails, save_processed_emails] using h.2

/-- **C9, witness.**  Both parts applied concretely: the delta of a
one-element set against a superset is empty, and saving then loading the
set containing `x` returns it. -/
theorem delta_roundtrip_witness :
    deltaEmails {"a"} {"a", "b"} = ∅ ∧
      load_processed_emails (save_processed_emails ["x"]) = {"x"} :=
  ⟨delta_empty_and_save_load_roundtrip.1 {"a"} {"a", "b"} (by decide),
   delta_empty_and_save_load_roundtrip.2 {"x"} ["x"] (by decide)⟩

theorem processRows_eq_none_iff (mapping : String → Option String)
    (writeFails : String → Bool) :
    ∀ (rows : List ValidRow) (tabs : List String) (proc : Finset String),
      processRows mapping writeFails rows tabs proc = none
        ↔ rows.any (rowAborts mapping writeFails) = true
  | [], tabs, proc => by simp [processRows]
  | r :: rest, tabs, proc => by
    simp only [processRows, List.any_cons]
    cases hf : filialFor mapping (normEmail r.email) with
    | none =>
      rw [processRows_eq_none_iff mapping writeFails rest]
      simp [rowAborts, hf]
    | some filial =>
      cases hw : writeFails filial
      · simp only [hw, Bool.false_eq_true, if_false]
        rw [processRows_eq_none_iff mapping writeFails rest]
        simp [rowAborts, hf, hw]
      · simp [rowAborts, hf, hw]

theorem mainRun_eq_none_iff (inp : RunInput) (writeFails : String → Bool)
    (newOrder : List String) :
    mainRun inp writeFails newOrder = none
      ↔ (filter_current_month_latest_per_email inp.responses inp.now).any
          (rowAborts inp.mapping writeFails) = true := by
  unfold mainRun
  by_cases hE : filter_current_month_latest_per_email inp.responses inp.now = []
  · rw [hE]
    simp
  · rw [if_neg hE]
    cases hP : processRows inp.mapping writeFails
        (filter_current_month_latest_per_email inp.responses inp.now) [] ∅ with
    | none =>
      simp only
      rw [← processRows_eq_none_iff inp.mapping writeFails _ [] ∅, hP]
      simp
    | some pr =>
      obtain ⟨tabs, proc⟩ := pr
      simp only
      constructor
      · intro h
        cases h
      · intro h
        rw [← processRows_eq_none_iff inp.mapping writeFails _ [] ∅, hP] at h
        cases h

/-- **C5.**  When `main` reaches `save_processed_emails` it passes exactly
`processed_emails | processed_this_run` - the union of the prior loaded
set and the identities processed this run, a superset of the prior set, so
nothing is ever removed - and when no submission survives the period
filter the early return skips the save entirely, leaving the persisted
state untouched. -/
theorem tracker_save_union_skip_on_empty (inp : RunInput)
    (writeFails : String → Bool) (newOrder : List String) (res : RunResult)
    (h : mainRun inp writeFails newOrder = some res) :
    (filter_current_month_latest_per_email inp.responses inp.now = [] →
        res.saved = none) ∧
      (¬ filter_current_month_latest_per_email inp.responses inp.now = [] →
        res.saved
            = some (load_processed_emails inp.fileState ∪ res.processedThisRun)
          ∧ load_processed_emails inp.fileState ⊆
              load_processed_emails inp.fileState ∪ res.processedThisRun) := by
  unfold mainRun at h
  by_cases hE : filter_current_month_latest_per_email inp.responses inp.now = []
  · rw [if_pos hE] at h
    injection h with h
    subst h
    constructor
    · intro _
      rfl
    · intro hne
      exact absurd hE hne
  · rw [if_neg hE] at h
    cases hP : processRows inp.mapping writeFails
        (filter_current_month_latest_per_email inp.responses inp.now) [] ∅ with
    | none =>
      rw [hP] at h
      cases h
    | some pr =>
      obtain ⟨tabs, proc⟩ := pr
      rw [hP] at h
      simp only at h
      injection h with h
      subst h
      refine ⟨fun hE' => absurd hE' hE, fun _ => ⟨rfl, Finset.subset_union_left⟩⟩

/-- **C5, witness.**  The theorem applied to the empty-run fixture (save
skipped) and to the one-submission fixture (save receives the union). -/
theorem tracker_save_union_witness :
    emptyRunResult.saved = none ∧
      resOneW.saved
        = some (load_processed_emails FileState.missing
            ∪ resOneW.processedThisRun) :=
  ⟨(tracker_save_union_skip_on_empty inpEmptyW (fun _ => false) [] emptyRunResult
      (by decide)).1 (by decide),
   ((tracker_save_union_skip_on_empty inpOneW (fun _ => false) ["a@x.com"] resOneW
      (by decide)).2 (by decide)).1⟩

/-- **C6, counterexample.**  The claim says a failing destination write
leaves that entity out of `updated` while the run continues with the
remaining entities.  The loop has no exception handling: with the write
for `F1` failing, the whole run dies (`none`) - `F2`, which the same input
yields when nothing fails, is never processed and no output is emitted at
all. -/
theorem write_failure_counterexample :
    mainRun inpTwoW failsF1 ["a@x.com", "b@y.com"] = none ∧
      (mainRun inpTwoW (fun _ => false) ["a@x.com", "b@y.com"]).map
          RunResult.updatedTabs
        = some ["F1", "F2"] := by
  constructor
  · decide
  · decide

/-- **C6, amended.**  A failing destination write aborts the entire run:
the run returns nothing (so in particular the failing entity is not in any
`updated` output, and no remaining entity is processed either), and
conversely the run only dies when some reached row's write fails. -/
theorem write_failure_aborts_run (inp : RunInput)
    (writeFails : String → Bool) (newOrder : List String) :
    ((filter_current_month_latest_per_email inp.responses inp.now).any
          (rowAborts inp.mapping writeFails) = true →
        mainRun inp writeFails newOrder = none) ∧
      ((filter_current_month_latest_per_email inp.responses inp.now).any
          (rowAborts inp.mapping writeFails) = false →
        ¬ mainRun inp writeFails newOrder = none) := by
  constructor
  · intro h
    exact (mainRun_eq_none_iff inp writeFails newOrder).mpr h
  · intro h hnone
    rw [(mainRun_eq_none_iff inp writeFails newOrder).mp hnone] at h
    cases h

/-- **C6, witness.**  The amended theorem applied concretely: the
two-submission fixture dies when `F1`'s write fails and completes when no
write fails. -/
theorem write_failure_aborts_witness :
    mainRun inpTwoW failsF1 ["a@x.com", "b@y.com"] = none ∧
      ¬ mainRun inpTwoW (fun _ => false) ["a@x.com", "b@y.com"] = none :=
  ⟨(write_failure_aborts_run inpTwoW failsF1 ["a@x.com", "b@y.com"]).1
      (by decide),
   (write_failure_aborts_run inpTwoW (fun _ => false) ["a@x.com", "b@y.com"]).2
      (by decide)⟩

/-- **C7.**  A run with zero eligible submissions does NOT emit the three
output values of the contract: the early return prints only two lines,
named `PROCESSED_EMAILS_JSON` (a key no other path and no consumer uses)
and `NEW_EMAILS_JSON`; `UPDATED_SHEETS_JSON` and `NEW_FILIAIS_JSON` are
omitted.  This is the behaviour at the failing input of the recorded code
bug. -/
theorem empty_run_omits_outputs :
    mainRun inpEmptyW (fun _ => false) [] = some emptyRunResult ∧
      emptyRunResult.outputs.map Prod.fst
        = ["PROCESSED_EMAILS_JSON", "NEW_EMAILS_JSON"] ∧
      ¬ "NEW_FILIAIS_JSON" ∈ emptyRunResult.outputs.map Prod.fst ∧
      ¬ "UPDATED_SHEETS_JSON" ∈ emptyRunResult.outputs.map Prod.fst := by
  refine ⟨by decide, by decide, by decide, by decide⟩

theorem processRows_some_tabs (mapping : String → Option String)
    (writeFails : String → Bool) :
    ∀ (rows : List ValidRow) (tabs : List String) (proc : Finset String)
      (tabs2 : List String) (proc2 : Finset String),
      processRows mapping writeFails rows tabs proc = some (tabs2, proc2) →
      tabs2 = List.foldl
          (fun acc x => if acc.contains x then acc else acc ++ [x]) tabs
          (rows.filterMap (fun r => filialFor mapping (normEmail r.email)))
  | [], tabs, proc, tabs2, proc2 => by
    intro h
    simp only [processRows, Option.some.injEq, Prod.mk.injEq] at h
    simp [← h.1]
  | r :: rest, tabs, proc, tabs2, proc2 => by
    intro h
    simp only [processRows] at h
    rw [List.filterMap_cons]
    cases hf : filialFor mapping (normEmail r.email) with
    | none =>
      rw [hf] at h
      simp only
      exact processRows_some_tabs mapping writeFails rest tabs proc tabs2 proc2 h
    | some filial =>
      rw [hf] at h
      simp only [] at h
      simp only []
      cases hw : writeFails filial
      · rw [hw] at h
        simp only [Bool.false_eq_true, if_false] at h
        simp only [List.foldl_cons]
        exact processRows_some_tabs mapping writeFails rest _ _ tabs2 proc2 h
      · rw [hw] at h
        simp at h

theorem foldl_dedup_append :
    ∀ (l acc : List String),
      List.foldl (fun acc x => if acc.contains x then acc else acc ++ [x]) acc l
        = acc ++ dedupKeepFirst (l.filter (fun x => !(acc.contains x)))
  | [], acc => by simp [dedupKeepFirst]
  | x :: xs, acc => by
    simp only [List.foldl_cons, List.filter_cons]
    cases hx : acc.contains x
    · simp only [hx, Bool.false_eq_true, if_false, Bool.not_false, if_true]
      rw [foldl_dedup_append xs (acc ++ [x]), dedupKeepFirst, List.filter_filter]
      have hfe : ∀ y, (!((acc ++ [x]).contains y))
          = (!(y == x) && !(acc.contains y)) := by
        intro y
        by_cases h1 : y ∈ acc
        · by_cases h2 : y = x <;> simp [h1, h2]
        · by_cases h2 : y = x <;> simp [h1, h2]
      rw [List.filter_congr (fun y _ => hfe y)]
      simp
    · simp only [hx, if_true, Bool.not_true, Bool.false_eq_true, if_false]
      exact foldl_dedup_append xs acc

theorem mem_newFiliaisOf_foldl (mapping : String → Option String) :
    ∀ (l acc : List String) (x : String),
      x ∈ List.foldl
          (fun new_filiais email =>
            match filialFor mapping email with
            | some filial =>
              if new_filiais.contains filial then new_filiais
              else new_filiais ++ [filial]
            | none => new_filiais)
          acc l
        ↔ x ∈ acc ∨ ∃ e ∈ l, filialFor mapping e = some x
  | [], acc, x => by simp
  | e :: rest, acc, x => by
    simp only [List.foldl_cons]
    cases hf : filialFor mapping e with
    | none =>
      rw [mem_newFiliaisOf_foldl mapping rest acc x]
      constructor
      · rintro (hx | ⟨e1, he1, hfe⟩)
        · exact Or.inl hx
        · exact Or.inr ⟨e1, List.mem_cons_of_mem e he1, hfe⟩
      · rintro (hx | ⟨e1, he1, hfe⟩)
        · exact Or.inl hx
        · rcases List.mem_cons.mp he1 with rfl | he2
          · rw [hf] at hfe
            cases hfe
          · exact Or.inr ⟨e1, he2, hfe⟩
    | some filial =>
      simp only []
      cases hc : acc.contains filial
      · simp only [hc, Bool.false_eq_true, if_false]
        rw [mem_newFiliaisOf_foldl mapping rest (acc ++ [filial]) x]
        simp only [List.mem_append, List.mem_singleton]
        constructor
        · rintro ((hx | rfl) | ⟨e1, he1, hfe⟩)
          · exact Or.inl hx
          · exact Or.inr ⟨e, List.mem_cons_self e rest, hf⟩
          · exact Or.inr ⟨e1, List.mem_cons_of_mem e he1, hfe⟩
        · rintro (hx | ⟨e1, he1, hfe⟩)
          · exact Or.inl (Or.inl hx)
          · rcases List.mem_cons.mp he1 with rfl | he2
            · rw [hf] at hfe
              injection hfe with hfe
              exact Or.inl (Or.inr hfe.symm)
            · exact Or.inr ⟨e1, he2, hfe⟩
      · simp only [hc, if_true]
        rw [mem_newFiliaisOf_foldl mapping rest acc x]
        have hmem : filial ∈ acc := by simpa using hc
        constructor
        · rintro (hx | ⟨e1, he1, hfe⟩)
          · exact Or.inl hx
          · exact Or.inr ⟨e1, List.mem_cons_of_mem e he1, hfe⟩
        · rintro (hx | ⟨e1, he1, hfe⟩)
          · exact Or.inl hx
          · rcases List.mem_cons.mp he1 with rfl | he2
            · rw [hf] at hfe
              injection hfe with hfe
              exact Or.inl (hfe ▸ hmem)
            · exact Or.inr ⟨e1, he2, hfe⟩

theorem mem_newFiliaisOf (mapping : String → Option String) (l : List String)
    (x : String) :
    x ∈ newFiliaisOf mapping l ↔ ∃ e ∈ l, filialFor mapping e = some x := by
  have h := mem_newFiliaisOf_foldl mapping l [] x
  simpa [newFiliaisOf] using h

/-- **C10, amended.**  For a fixed input the run is deterministic except
for set-iteration order: whether it aborts, the updated list (in
first-occurrence order of the canonical submissions), the saved state and
the delta set do not depend on the order CPython enumerates `new_emails`,
and the delta filial list is determined as a set; moreover `updated` is
exactly the first-occurrence deduplication of the filiais of the filtered
rows in filter-output order.  The serialisation order of `NEW_EMAILS_JSON`
and `NEW_FILIAIS_JSON` itself, however, follows the enumeration and is
not a function of the input (see the counterexample). -/
theorem run_deterministic_amended (inp : RunInput)
    (writeFails : String → Bool) (o1 o2 : List String)
    (h1 : enumOK (newEmailsOf inp) o1) (h2 : enumOK (newEmailsOf inp) o2) :
    ((mainRun inp writeFails o1 = none) ↔ (mainRun inp writeFails o2 = none)) ∧
      (∀ a b, mainRun inp writeFails o1 = some a →
        mainRun inp writeFails o2 = some b →
        a.updatedTabs = b.updatedTabs ∧ a.saved = b.saved ∧
          a.newEmails = b.newEmails ∧
          a.newFiliais.toFinset = b.newFiliais.toFinset) ∧
      (∀ a, mainRun inp writeFails o1 = some a →
        a.updatedTabs = dedupKeepFirst
          ((filter_current_month_latest_per_email inp.responses
              inp.now).filterMap
            (fun r => filialFor inp.mapping (normEmail r.email)))) := by
  refine ⟨?_, ?_, ?_⟩
  · rw [mainRun_eq_none_iff, mainRun_eq_none_iff]
  · intro a b ha hb
    unfold mainRun at ha hb
    by_cases hE : filter_current_month_latest_per_email inp.responses inp.now = []
    · rw [if_pos hE] at ha hb
      injection ha with ha
      injection hb with hb
      subst ha
      subst hb
      exact ⟨rfl, rfl, rfl, rfl⟩
    · rw [if_neg hE] at ha hb
      cases hP : processRows inp.mapping writeFails
          (filter_current_month_latest_per_email inp.responses inp.now) [] ∅ with
      | none =>
        rw [hP] at ha
        cases ha
      | some pr =>
        obtain ⟨tabs, proc⟩ := pr
        rw [hP] at ha hb
        simp only [] at ha hb
        injection ha with ha
        injection hb with hb
        subst ha
        subst hb
        refine ⟨rfl, rfl, rfl, ?_⟩
        ext x
        simp only [List.mem_toFinset, mem_newFiliaisOf]
        have hm : ∀ e, e ∈ o1 ↔ e ∈ o2 := by
          intro e
          rw [← List.mem_toFinset, h1.2, ← h2.2, List.mem_toFinset]
        constructor
        · rintro ⟨e, he, hfe⟩
          exact ⟨e, (hm e).mp he, hfe⟩
        · rintro ⟨e, he, hfe⟩
          exact ⟨e, (hm e).mpr he, hfe⟩
  · intro a ha
    unfold mainRun at ha
    by_cases hE : filter_current_month_latest_per_email inp.responses inp.now = []
    · rw [if_pos hE] at ha
      injection ha with ha
      subst ha
      rw [hE]
      simp [emptyRunResult, dedupKeepFirst]
    · rw [if_neg hE] at ha
      cases hP : processRows inp.mapping writeFails
          (filter_current_month_latest_per_email inp.responses inp.now) [] ∅ with
      | none =>
        rw [hP] at ha
        cases ha
      | some pr =>
        obtain ⟨tabs, proc⟩ := pr
        rw [hP] at ha
        simp only [] at ha
        injection ha with ha
        subst ha
        show tabs = _
        rw [processRows_some_tabs inp.mapping writeFails _ [] ∅ tabs proc hP,
          foldl_dedup_append]
        simp

/-- **C10, counterexample.**  Two executions of the run on the same fixed
input, differing only in the order CPython happens to enumerate the
`new_emails` set - both orders are genuine enumerations of that set -
produce different outputs: `NEW_EMAILS_JSON` and `NEW_FILIAIS_JSON` come
out in different orders, refuting the claim that the emitted lists,
including the delta entity-name list, are deterministic for a fixed
input. -/
theorem run_order_counterexample :
    enumOK (newEmailsOf inpTwoW) ordAB ∧ enumOK (newEmailsOf inpTwoW) ordBA ∧
      ¬ mainRun inpTwoW (fun _ => false) ordAB
          = mainRun inpTwoW (fun _ => false) ordBA := by
  refine ⟨by decide, by decide, by decide⟩

/-- **C10, witness.**  The amended theorem applied at the two-submission
fixture: the updated list is the first-occurrence deduplication of the
filtered rows' filiais. -/
theorem run_deterministic_witness :
    mainRun inpTwoW (fun _ => false) ordAB = some resTwoW ∧
      resTwoW.updatedTabs = dedupKeepFirst
        ((filter_current_month_latest_per_email inpTwoW.responses
            inpTwoW.now).filterMap
          (fun r => filialFor inpTwoW.mapping (normEmail r.email))) :=
  ⟨by decide,
   (run_deterministic_amended inpTwoW (fun _ => false) ordAB ordAB
      (by decide) (by decide)).2.2 resTwoW (by decide)⟩
